import Mathlib

/-!
Verification of the libtorrent excerpt: the big-endian binary codec of
`io.hpp` (`lt::aux::read_impl`, `write_impl`, the width adaptors and
`write_string`), the `disk_io_job` record of `disk_io_job.hpp`, and the
`session_delegate` base class of `session_delegate.h`.

Machine integers are embedded as their bit patterns: a value of a
`w`-byte type is a `Nat` strictly below `2 ^ (8 * w)`; signed values are
related to patterns through the two's-complement maps `toBits` and
`toSigned`.  Byte buffers are `List Nat` and iterators are a buffer
together with a position.
-/

/-- A byte cursor: the contents of a contiguous byte buffer together with
the current position.  This models the `InIt` / `OutIt` iterators that
`io.hpp` advances over a buffer. -/
structure Cursor where
  buf : List Nat
  pos : Nat
deriving DecidableEq

/-- Dereferencing an input iterator, `static_cast<std::uint8_t>(*start)`:
the byte at the current position, reduced mod 256 by the cast. -/
def Cursor.peek (c : Cursor) : Nat := c.buf.getD c.pos 0 % 256

/-- Advancing an iterator, `++start`. -/
def Cursor.next (c : Cursor) : Cursor := ⟨c.buf, c.pos + 1⟩

/-- Writing through an output iterator, `*start = b; ++start`. -/
def Cursor.writeByte (c : Cursor) (b : Nat) : Cursor :=
  ⟨c.buf.set c.pos b, c.pos + 1⟩

/-- The loop of `read_impl` with `i` iterations left to run.  Each
iteration performs `ret <<= 8; ret |= static_cast<std::uint8_t>(*start);
++start` on the accumulator `ret`, which is the bit pattern of the
width-`w` destination type `T`, so the shift truncates mod `2 ^ (8 * w)`. -/
def read_impl_loop (w : Nat) : Nat → Nat → Cursor → Nat × Cursor
  | 0, ret, c => (ret, c)
  | i + 1, ret, c =>
      read_impl_loop w i ((ret <<< 8) % 2 ^ (8 * w) ||| c.peek) c.next

/-- The generic `read_impl<T>(start, type<T>())` for a `T` of width `w`
bytes: starting from `ret = 0`, consume `w` bytes in big-endian order and
return the accumulated bit pattern together with the advanced cursor. -/
def read_impl (w : Nat) (c : Cursor) : Nat × Cursor :=
  read_impl_loop w w 0 c

/-- The loop of `write_impl` with `i` iterations left: the C++ index runs
`i = sizeof(T) - 1` down to `0`, emitting `(val >> (i * 8)) & 0xff` at each
step, so with `i + 1` iterations left the current shift index is `i`. -/
def write_impl_loop (val : Nat) : Nat → Cursor → Cursor
  | 0, c => c
  | i + 1, c => write_impl_loop val i (c.writeByte (val >>> (i * 8) &&& 255))

/-- Two's-complement bit pattern of an integer value in a `w`-byte type:
the effect of `static_cast<T>(data)` for a `T` of width `w`. -/
def toBits (w : Nat) (v : Int) : Nat := (v % ((2 ^ (8 * w) : Nat) : Int)).toNat

/-- Reinterpret a `w`-byte bit pattern as a signed (two's-complement)
value. -/
def toSigned (w : Nat) (x : Nat) : Int :=
  if x < 2 ^ (8 * w - 1) then (x : Int) else (x : Int) - (2 ^ (8 * w) : Nat)

/-- The generic `write_impl<T>(data, start)` for a `T` of width `w` bytes:
cast `data` to `T` (`T val = static_cast<T>(data)`) and emit the `w` bytes
of `val`, most significant first.  Returns the advanced cursor.  The
`TORRENT_ASSERT` of the source is modelled by `write_assert_holds`. -/
def write_impl (w : Nat) (data : Int) (c : Cursor) : Cursor :=
  write_impl_loop (toBits w data) w c

-- Basic shape lemmas for the write loop.

theorem write_impl_loop_buf_length (val : Nat) :
    ∀ (i : Nat) (c : Cursor),
      (write_impl_loop val i c).buf.length = c.buf.length := by
  intro i
  induction i with
  | zero => intro c; rfl
  | succ i ih =>
      intro c
      simp [write_impl_loop, ih, Cursor.writeByte]

theorem write_impl_loop_pos (val : Nat) :
    ∀ (i : Nat) (c : Cursor), (write_impl_loop val i c).pos = c.pos + i := by
  intro i
  induction i with
  | zero => intro c; rfl
  | succ i ih =>
      intro c
      simp [write_impl_loop, ih, Cursor.writeByte]
      omega

theorem write_impl_loop_frame (val : Nat) :
    ∀ (i : Nat) (c : Cursor) (j : Nat), j < c.pos ∨ c.pos + i ≤ j →
      (write_impl_loop val i c).buf.getD j 0 = c.buf.getD j 0 := by
  intro i
  induction i with
  | zero => intro c j _; rfl
  | succ i ih =>
      intro c j hj
      have hne : c.pos ≠ j := by omega
      have hstep : (c.writeByte (val >>> (i * 8) &&& 255)).buf.getD j 0
          = c.buf.getD j 0 := by
        simp [Cursor.writeByte, List.getD_eq_getElem?_getD, List.getElem?_set_ne hne]
      have := ih (c.writeByte (val >>> (i * 8) &&& 255)) j
        (by simp [Cursor.writeByte]; omega)
      rw [write_impl_loop] at *
      rw [this, hstep]

theorem write_impl_loop_getD (val : Nat) :
    ∀ (i : Nat) (c : Cursor) (k : Nat), k < i → c.pos + i ≤ c.buf.length →
      (write_impl_loop val i c).buf.getD (c.pos + k) 0
        = val >>> ((i - 1 - k) * 8) &&& 255 := by
  intro i
  induction i with
  | zero => intro c k hk _; omega
  | succ i ih =>
      intro c k hk hfit
      rw [write_impl_loop]
      match k with
      | 0 =>
          have hframe := write_impl_loop_frame val i
            (c.writeByte (val >>> (i * 8) &&& 255)) c.pos
            (by simp [Cursor.writeByte])
          simp only [Nat.add_zero, Nat.add_sub_cancel]
          rw [hframe]
          have hlt : c.pos < c.buf.length := by omega
          simp [Cursor.writeByte, List.getD_eq_getElem?_getD,
            List.getElem?_set_self (by simpa using hlt)]
      | k + 1 =>
          have := ih (c.writeByte (val >>> (i * 8) &&& 255)) k
            (by omega) (by simp [Cursor.writeByte]; omega)
          have harith : c.pos + (k + 1) = (c.writeByte (val >>> (i * 8) &&& 255)).pos + k := by
            simp [Cursor.writeByte]; omega
          rw [harith, this]
          have : i + 1 - 1 - (k + 1) = i - 1 - k := by omega
          rw [this]

-- Bit-level helpers for the read loop.

theorem lor_shiftLeft_add (a b n : Nat) (h : b < 2 ^ n) :
    (a <<< n) ||| b = a * 2 ^ n + b := by
  have hdiv : ((a <<< n) ||| b) >>> n = a := by
    apply Nat.eq_of_testBit_eq
    intro i
    simp [Nat.testBit_shiftRight, Nat.testBit_lor, Nat.testBit_shiftLeft,
      Nat.testBit_lt_two_pow
        (Nat.lt_of_lt_of_le h (Nat.pow_le_pow_right (by norm_num) (Nat.le_add_right n i)))]
  have hmod : ((a <<< n) ||| b) % 2 ^ n = b := by
    apply Nat.eq_of_testBit_eq
    intro i
    rw [Nat.testBit_mod_two_pow]
    rcases Nat.lt_or_ge i n with hi | hi
    · simp [hi, Nat.testBit_lor, Nat.testBit_shiftLeft, Nat.not_le.mpr hi]
    · simp [Nat.not_lt.mpr hi, Nat.testBit_lt_two_pow
        (Nat.lt_of_lt_of_le h (Nat.pow_le_pow_right (by norm_num) hi))]
  have hsplit := Nat.div_add_mod ((a <<< n) ||| b) (2 ^ n)
  rw [← Nat.shiftRight_eq_div_pow] at hsplit
  rw [hdiv, hmod] at hsplit
  rw [Nat.mul_comm] at hsplit
  omega

theorem Cursor.peek_lt (c : Cursor) : c.peek < 256 :=
  Nat.mod_lt _ (by norm_num)

theorem read_impl_loop_cursor (w : Nat) :
    ∀ (i ret : Nat) (c : Cursor),
      (read_impl_loop w i ret c).2 = ⟨c.buf, c.pos + i⟩ := by
  intro i
  induction i with
  | zero => intro ret c; rfl
  | succ i ih =>
      intro ret c
      rw [read_impl_loop, ih]
      simp [Cursor.next]
      omega

theorem read_impl_loop_inv (w v : Nat) (hv : v < 2 ^ (8 * w)) :
    ∀ (i : Nat), i ≤ w → ∀ (c : Cursor),
      (∀ k, k < i → c.buf.getD (c.pos + k) 0 % 256 = v >>> ((i - 1 - k) * 8) % 256) →
      (read_impl_loop w i (v >>> (i * 8)) c).1 = v := by
  intro i
  induction i with
  | zero =>
      intro _ c _
      simp [read_impl_loop, Nat.shiftRight_eq_div_pow]
  | succ i ih =>
      intro hi c hbytes
      rw [read_impl_loop]
      have hpow : (2 : Nat) ^ ((i + 1) * 8) = 2 ^ (i * 8) * 2 ^ 8 := by
        rw [show (i + 1) * 8 = i * 8 + 8 from by ring, pow_add]
      have hshift : v >>> ((i + 1) * 8) = v >>> (i * 8) / 2 ^ 8 := by
        rw [Nat.shiftRight_eq_div_pow, Nat.shiftRight_eq_div_pow, hpow,
          Nat.div_div_eq_div_mul]
      have hle : v >>> ((i + 1) * 8) * 2 ^ 8 ≤ v := by
        rw [hshift]
        calc v >>> (i * 8) / 2 ^ 8 * 2 ^ 8 ≤ v >>> (i * 8) := Nat.div_mul_le_self _ _
          _ ≤ v := by rw [Nat.shiftRight_eq_div_pow]; exact Nat.div_le_self _ _
      have hmodid : v >>> ((i + 1) * 8) <<< 8 % 2 ^ (8 * w) = v >>> ((i + 1) * 8) <<< 8 := by
        apply Nat.mod_eq_of_lt
        rw [Nat.shiftLeft_eq]
        exact Nat.lt_of_le_of_lt hle hv
      have hpeek : c.peek = v >>> (i * 8) % 256 := by
        have := hbytes 0 (by omega)
        simp only [Nat.add_zero, Nat.add_sub_cancel] at this
        simpa [Cursor.peek] using this
      have hacc : v >>> ((i + 1) * 8) <<< 8 % 2 ^ (8 * w) ||| c.peek = v >>> (i * 8) := by
        have hb : v >>> (i * 8) % 256 < 2 ^ 8 := Nat.mod_lt _ (by norm_num)
        rw [hmodid, hpeek,
          lor_shiftLeft_add (v >>> ((i + 1) * 8)) (v >>> (i * 8) % 256) 8 hb, hshift]
        have h256 : (2 : Nat) ^ 8 = 256 := by norm_num
        rw [h256]
        omega
      rw [hacc]
      apply ih (by omega)
      intro k hk
      have := hbytes (k + 1) (by omega)
      have harith : c.pos + (k + 1) = c.next.pos + k := by
        simp [Cursor.next]; omega
      rw [harith] at this
      have hidx : i + 1 - 1 - (k + 1) = i - 1 - k := by omega
      rw [hidx] at this
      exact this

-- Round-trip at the bit-pattern level: reading back the bytes written by
-- the write loop recovers the value.

theorem read_after_write (w v : Nat) (hv : v < 2 ^ (8 * w)) (c : Cursor)
    (hfit : c.pos + w ≤ c.buf.length) :
    (read_impl w ⟨(write_impl_loop v w c).buf, c.pos⟩).1 = v := by
  unfold read_impl
  have h0 : (0 : Nat) = v >>> (w * 8) := by
    rw [Nat.shiftRight_eq_div_pow, show w * 8 = 8 * w from by ring]
    exact (Nat.div_eq_of_lt hv).symm
  rw [h0]
  apply read_impl_loop_inv w v hv w (Nat.le_refl w)
  intro k hk
  have hb := write_impl_loop_getD v w c k hk hfit
  have h255 : ∀ x : Nat, x &&& 255 = x % 256 := fun x =>
    Nat.and_pow_two_sub_one_eq_mod x 8
  show (write_impl_loop v w c).buf.getD (c.pos + k) 0 % 256
      = v >>> ((w - 1 - k) * 8) % 256
  rw [hb, h255]
  omega

-- Lemmas about the two's-complement maps.

theorem toBits_lt (w : Nat) (v : Int) : toBits w v < 2 ^ (8 * w) := by
  unfold toBits
  have hpos : (0 : Int) < ((2 ^ (8 * w) : Nat) : Int) := by positivity
  have h1 := Int.emod_nonneg v (ne_of_gt hpos)
  have h2 := Int.emod_lt_of_pos v hpos
  omega

theorem toBits_ofNat (w v : Nat) (hv : v < 2 ^ (8 * w)) : toBits w (v : Int) = v := by
  unfold toBits
  rw [Int.emod_eq_of_lt (by positivity) (by exact_mod_cast hv)]
  simp

theorem toSigned_toBits (w : Nat) (hw : 0 < w) (v : Int)
    (h1 : -((2 ^ (8 * w - 1) : Nat) : Int) ≤ v)
    (h2 : v < ((2 ^ (8 * w - 1) : Nat) : Int)) :
    toSigned w (toBits w v) = v := by
  unfold toSigned toBits
  have hhalf : ((2 ^ (8 * w) : Nat) : Int) = 2 * ((2 ^ (8 * w - 1) : Nat) : Int) := by
    push_cast
    rw [← pow_succ']
    congr 1
    omega
  have hpos : (0 : Int) < ((2 ^ (8 * w) : Nat) : Int) := by positivity
  rcases le_or_lt 0 v with hnn | hneg
  · have hv' : v % ((2 ^ (8 * w) : Nat) : Int) = v := Int.emod_eq_of_lt hnn (by omega)
    rw [hv']
    split_ifs with hif
    · omega
    · exfalso
      omega
  · have hv' : v % ((2 ^ (8 * w) : Nat) : Int) = v + ((2 ^ (8 * w) : Nat) : Int) := by
      have hshift : (v + ((2 ^ (8 * w) : Nat) : Int)) % ((2 ^ (8 * w) : Nat) : Int)
          = v % ((2 ^ (8 * w) : Nat) : Int) := by
        simp
      rw [← hshift]
      exact Int.emod_eq_of_lt (by omega) (by omega)
    rw [hv']
    split_ifs with hif
    · exfalso
      omega
    · omega

-- The generic round-trip theorems over any width.

theorem unsigned_roundtrip (w v : Nat) (hv : v < 2 ^ (8 * w)) (c : Cursor)
    (hfit : c.pos + w ≤ c.buf.length) :
    (read_impl w ⟨(write_impl w (v : Int) c).buf, c.pos⟩).1 = v := by
  unfold write_impl
  rw [toBits_ofNat w v hv]
  exact read_after_write w v hv c hfit

theorem signed_roundtrip (w : Nat) (hw : 0 < w) (v : Int)
    (h1 : -((2 ^ (8 * w - 1) : Nat) : Int) ≤ v)
    (h2 : v < ((2 ^ (8 * w - 1) : Nat) : Int)) (c : Cursor)
    (hfit : c.pos + w ≤ c.buf.length) :
    toSigned w (read_impl w ⟨(write_impl w v c).buf, c.pos⟩).1 = v := by
  unfold write_impl
  rw [read_after_write w (toBits w v) (toBits_lt w v) c hfit]
  exact toSigned_toBits w hw v h1 h2

-- Bridge from the bit pattern written by the loop to the arithmetic of the
-- original integer value: byte extraction commutes with the reduction that
-- `static_cast<T>` performs.

theorem toBits_shift_mod (w : Nat) (data : Int) (k : Nat) (hk : k + 8 ≤ 8 * w) :
    toBits w data >>> k % 256 = ((data / 2 ^ k) % 256).toNat := by
  have hM : ((2 ^ (8 * w) : Nat) : Int) = 2 ^ (8 * w) := by push_cast; ring
  have hMpos : (0 : Int) < 2 ^ (8 * w) := by positivity
  have hr0 : (0 : Int) ≤ data % 2 ^ (8 * w) := Int.emod_nonneg data (ne_of_gt hMpos)
  have htb : ((toBits w data : Nat) : Int) = data % 2 ^ (8 * w) := by
    unfold toBits
    rw [hM, Int.toNat_of_nonneg hr0]
  have hcast : ((toBits w data >>> k % 256 : Nat) : Int)
      = data % 2 ^ (8 * w) / 2 ^ k % 256 := by
    rw [Nat.shiftRight_eq_div_pow, Int.natCast_mod, Int.natCast_div, htb, Int.natCast_pow]
    norm_num
  have hsplit : (2 : Int) ^ (8 * w) = 2 ^ (8 * w - k) * 2 ^ k := by
    rw [← pow_add]
    congr 1
    omega
  have hstep : data % (2 : Int) ^ (8 * w)
      = data + -(2 ^ (8 * w - k) * (data / 2 ^ (8 * w))) * 2 ^ k := by
    rw [Int.emod_def]
    rw [hsplit]
    ring
  have hint : data % 2 ^ (8 * w) / 2 ^ k % 256 = data / 2 ^ k % 256 := by
    rw [hstep, Int.add_mul_ediv_right _ _ (by positivity : (2 : Int) ^ k ≠ 0)]
    have h256 : (2 : Int) ^ (8 * w - k) = 2 ^ (8 * w - k - 8) * 256 := by
      rw [show (256 : Int) = 2 ^ 8 from by norm_num, ← pow_add]
      congr 1
      omega
    have hstep2 : data / 2 ^ k + -(2 ^ (8 * w - k) * (data / 2 ^ (8 * w)))
        = data / 2 ^ k + -(2 ^ (8 * w - k - 8) * (data / 2 ^ (8 * w))) * 256 := by
      rw [h256]
      ring
    rw [hstep2, Int.add_mul_emod_self]
  have hfin := hcast.trans hint
  have hrhs0 : (0 : Int) ≤ data / 2 ^ k % 256 := Int.emod_nonneg _ (by norm_num)
  omega

-- The width adaptors of io.hpp.  A read adaptor of a signed type returns
-- the signed reinterpretation of the bit pattern; a write adaptor forwards
-- to `write_impl` at the width of its target type.

/-- `read_int64(start)`: `read_impl(start, type<std::int64_t>())`. -/
def read_int64 (c : Cursor) : Int × Cursor :=
  (toSigned 8 (read_impl 8 c).1, (read_impl 8 c).2)

/-- `read_uint64(start)`: `read_impl(start, type<std::uint64_t>())`. -/
def read_uint64 (c : Cursor) : Nat × Cursor := read_impl 8 c

/-- `read_uint32(start)`: `read_impl(start, type<std::uint32_t>())`. -/
def read_uint32 (c : Cursor) : Nat × Cursor := read_impl 4 c

/-- `read_int32(start)`: `read_impl(start, type<std::int32_t>())`. -/
def read_int32 (c : Cursor) : Int × Cursor :=
  (toSigned 4 (read_impl 4 c).1, (read_impl 4 c).2)

/-- `read_int16(start)`: `read_impl(start, type<std::int16_t>())`. -/
def read_int16 (c : Cursor) : Int × Cursor :=
  (toSigned 2 (read_impl 2 c).1, (read_impl 2 c).2)

/-- `read_uint16(start)`: `read_impl(start, type<std::uint16_t>())`. -/
def read_uint16 (c : Cursor) : Nat × Cursor := read_impl 2 c

/-- `read_int8(start)`: the dedicated overload
`static_cast<std::int8_t>(*start++)`. -/
def read_int8 (c : Cursor) : Int × Cursor := (toSigned 1 c.peek, c.next)

/-- `read_uint8(start)`: the dedicated overload
`static_cast<std::uint8_t>(*start++)`. -/
def read_uint8 (c : Cursor) : Nat × Cursor := (c.peek, c.next)

/-- `write_uint64(val, start)`: `write_impl<std::uint64_t>(val, start)`. -/
def write_uint64 (val : Int) (c : Cursor) : Cursor := write_impl 8 val c

/-- `write_int64(val, start)`: `write_impl<std::int64_t>(val, start)`. -/
def write_int64 (val : Int) (c : Cursor) : Cursor := write_impl 8 val c

/-- `write_uint32(val, start)`: `write_impl<std::uint32_t>(val, start)`. -/
def write_uint32 (val : Int) (c : Cursor) : Cursor := write_impl 4 val c

/-- `write_int32(val, start)`: `write_impl<std::int32_t>(val, start)`. -/
def write_int32 (val : Int) (c : Cursor) : Cursor := write_impl 4 val c

/-- `write_uint16(val, start)`: `write_impl<std::uint16_t>(val, start)`. -/
def write_uint16 (val : Int) (c : Cursor) : Cursor := write_impl 2 val c

/-- `write_int16(val, start)`: `write_impl<std::int16_t>(val, start)`. -/
def write_int16 (val : Int) (c : Cursor) : Cursor := write_impl 2 val c

/-- `write_uint8(val, start)`: `write_impl<std::uint8_t>(val, start)`. -/
def write_uint8 (val : Int) (c : Cursor) : Cursor := write_impl 1 val c

/-- `write_int8(val, start)`: `write_impl<std::int8_t>(val, start)`. -/
def write_int8 (val : Int) (c : Cursor) : Cursor := write_impl 1 val c

/-- The single-iteration instance of the generic read loop agrees with the
dedicated one-byte overloads. -/
theorem read_impl_one (c : Cursor) : read_impl 1 c = (c.peek, c.next) := by
  show ((0 <<< 8) % 2 ^ (8 * 1) ||| c.peek, c.next) = (c.peek, c.next)
  norm_num

/-- Claim C1: for every unsigned 32-bit value, including 0 and the maximum,
writing it into a byte buffer with `write_uint32` and reading back from the
written bytes with `read_uint32` yields the value again. -/
theorem write_read_uint32_roundtrip (v : Nat) (hv : v < 2 ^ 32) (c : Cursor)
    (hfit : c.pos + 4 ≤ c.buf.length) :
    (read_uint32 ⟨(write_uint32 (v : Int) c).buf, c.pos⟩).1 = v := by
  simp only [read_uint32, write_uint32]
  exact unsigned_roundtrip 4 v (by simpa using hv) c hfit

theorem write_read_uint32_roundtrip_witness :
    (3000000000 : Nat) < 2 ^ 32
    ∧ (read_uint32 ⟨(write_uint32 ((3000000000 : Nat) : Int) ⟨[7, 7, 7, 7], 0⟩).buf, 0⟩).1
        = 3000000000 :=
  ⟨by norm_num,
   write_read_uint32_roundtrip 3000000000 (by norm_num) ⟨[7, 7, 7, 7], 0⟩ (by decide)⟩

/-- Claim C2: the codec is big-endian.  For a width-`w` write of integer
value `data`, the byte at offset `i` of the output window equals
`(data >> (8 * (w - 1 - i))) mod 256`, the shift being the arithmetic
(floor) one and the remainder nonnegative, so the first byte emitted is the
most significant. -/
theorem write_impl_bigendian_bytes (w : Nat) (data : Int) (c : Cursor) (i : Nat)
    (hi : i < w) (hfit : c.pos + w ≤ c.buf.length) :
    (write_impl w data c).buf.getD (c.pos + i) 0
      = ((data / 2 ^ (8 * (w - 1 - i))) % 256).toNat := by
  unfold write_impl
  rw [write_impl_loop_getD (toBits w data) w c i hi hfit]
  have h255 : ∀ x : Nat, x &&& 255 = x % 256 := fun x =>
    Nat.and_pow_two_sub_one_eq_mod x 8
  rw [h255]
  rw [show 8 * (w - 1 - i) = (w - 1 - i) * 8 from by ring]
  exact toBits_shift_mod w data ((w - 1 - i) * 8) (by omega)

theorem write_impl_bigendian_bytes_witness :
    ((write_impl 2 (-2) ⟨[9, 9], 0⟩).buf.getD (0 + 1) 0
        = (((-2 : Int) / 2 ^ (8 * (2 - 1 - 1))) % 256).toNat)
    ∧ (((-2 : Int) / 2 ^ (8 * (2 - 1 - 1))) % 256).toNat = 254 :=
  ⟨write_impl_bigendian_bytes 2 (-2) ⟨[9, 9], 0⟩ 1 (by norm_num) (by decide),
   by decide⟩

/-- Claim C4: a width-`w` codec operation advances the cursor by exactly `w`
positions and touches no other part of the buffer: `write_impl` moves the
position from `pos` to `pos + w` and leaves every byte outside
`[pos, pos + w)` unchanged, and `read_impl` moves the position by `w` and
leaves the buffer entirely unchanged. -/
theorem codec_cursor_advance_frame (w : Nat) (data : Int) (c : Cursor) :
    (write_impl w data c).pos = c.pos + w
    ∧ (read_impl w c).2.pos = c.pos + w
    ∧ (read_impl w c).2.buf = c.buf
    ∧ ∀ j, j < c.pos ∨ c.pos + w ≤ j →
        (write_impl w data c).buf.getD j 0 = c.buf.getD j 0 := by
  refine ⟨write_impl_loop_pos _ w c, ?_, ?_, ?_⟩
  · rw [read_impl, read_impl_loop_cursor]
  · rw [read_impl, read_impl_loop_cursor]
  · intro j hj
    exact write_impl_loop_frame _ w c j hj

theorem codec_cursor_advance_frame_witness :
    (write_impl 2 5 ⟨[1, 2, 3, 4], 1⟩).pos = 1 + 2
    ∧ (write_impl 2 5 ⟨[1, 2, 3, 4], 1⟩).buf.getD 0 0
        = ([1, 2, 3, 4] : List Nat).getD 0 0 :=
  ⟨(codec_cursor_advance_frame 2 5 ⟨[1, 2, 3, 4], 1⟩).1,
   (codec_cursor_advance_frame 2 5 ⟨[1, 2, 3, 4], 1⟩).2.2.2 0 (by decide)⟩

/-- Claim C9: the write-then-read round-trip holds for every adaptor pair of
io.hpp, not only unsigned 32-bit: for each of the 8/16/32/64-bit signed and
unsigned pairs and every value representable in that width, negative values
included, writing then reading returns the original value. -/
theorem adaptor_roundtrips :
    (∀ (v : Nat) (c : Cursor), v < 2 ^ 64 → c.pos + 8 ≤ c.buf.length →
        (read_uint64 ⟨(write_uint64 (v : Int) c).buf, c.pos⟩).1 = v)
    ∧ (∀ (v : Int) (c : Cursor), -(2 ^ 63) ≤ v → v < 2 ^ 63 →
        c.pos + 8 ≤ c.buf.length →
        (read_int64 ⟨(write_int64 v c).buf, c.pos⟩).1 = v)
    ∧ (∀ (v : Nat) (c : Cursor), v < 2 ^ 32 → c.pos + 4 ≤ c.buf.length →
        (read_uint32 ⟨(write_uint32 (v : Int) c).buf, c.pos⟩).1 = v)
    ∧ (∀ (v : Int) (c : Cursor), -(2 ^ 31) ≤ v → v < 2 ^ 31 →
        c.pos + 4 ≤ c.buf.length →
        (read_int32 ⟨(write_int32 v c).buf, c.pos⟩).1 = v)
    ∧ (∀ (v : Nat) (c : Cursor), v < 2 ^ 16 → c.pos + 2 ≤ c.buf.length →
        (read_uint16 ⟨(write_uint16 (v : Int) c).buf, c.pos⟩).1 = v)
    ∧ (∀ (v : Int) (c : Cursor), -(2 ^ 15) ≤ v → v < 2 ^ 15 →
        c.pos + 2 ≤ c.buf.length →
        (read_int16 ⟨(write_int16 v c).buf, c.pos⟩).1 = v)
    ∧ (∀ (v : Nat) (c : Cursor), v < 2 ^ 8 → c.pos + 1 ≤ c.buf.length →
        (read_uint8 ⟨(write_uint8 (v : Int) c).buf, c.pos⟩).1 = v)
    ∧ (∀ (v : Int) (c : Cursor), -(2 ^ 7) ≤ v → v < 2 ^ 7 →
        c.pos + 1 ≤ c.buf.length →
        (read_int8 ⟨(write_int8 v c).buf, c.pos⟩).1 = v) := by
  refine ⟨?_, ?_, ?_, ?_, ?_, ?_, ?_, ?_⟩
  · intro v c hv hfit
    simp only [read_uint64, write_uint64]
    exact unsigned_roundtrip 8 v (by simpa using hv) c hfit
  · intro v c h1 h2 hfit
    have hcast : ((2 ^ (8 * 8 - 1) : Nat) : Int) = 2 ^ 63 := by norm_num
    simp only [read_int64, write_int64]
    exact signed_roundtrip 8 (by norm_num) v (by rw [hcast]; exact h1)
      (by rw [hcast]; exact h2) c hfit
  · intro v c hv hfit
    simp only [read_uint32, write_uint32]
    exact unsigned_roundtrip 4 v (by simpa using hv) c hfit
  · intro v c h1 h2 hfit
    have hcast : ((2 ^ (8 * 4 - 1) : Nat) : Int) = 2 ^ 31 := by norm_num
    simp only [read_int32, write_int32]
    exact signed_roundtrip 4 (by norm_num) v (by rw [hcast]; exact h1)
      (by rw [hcast]; exact h2) c hfit
  · intro v c hv hfit
    simp only [read_uint16, write_uint16]
    exact unsigned_roundtrip 2 v (by simpa using hv) c hfit
  · intro v c h1 h2 hfit
    have hcast : ((2 ^ (8 * 2 - 1) : Nat) : Int) = 2 ^ 15 := by norm_num
    simp only [read_int16, write_int16]
    exact signed_roundtrip 2 (by norm_num) v (by rw [hcast]; exact h1)
      (by rw [hcast]; exact h2) c hfit
  · intro v c hv hfit
    have h := unsigned_roundtrip 1 v (by simpa using hv) c hfit
    simp only [read_uint8, write_uint8]
    rw [show (⟨(write_impl 1 (v : Int) c).buf, c.pos⟩ : Cursor).peek
        = (read_impl 1 ⟨(write_impl 1 (v : Int) c).buf, c.pos⟩).1 from by
      rw [read_impl_one]]
    exact h
  · intro v c h1 h2 hfit
    have hcast : ((2 ^ (8 * 1 - 1) : Nat) : Int) = 2 ^ 7 := by norm_num
    have h := signed_roundtrip 1 (by norm_num) v (by rw [hcast]; exact h1)
      (by rw [hcast]; exact h2) c hfit
    simp only [read_int8, write_int8]
    rw [show (⟨(write_impl 1 v c).buf, c.pos⟩ : Cursor).peek
        = (read_impl 1 ⟨(write_impl 1 v c).buf, c.pos⟩).1 from by
      rw [read_impl_one]]
    exact h

theorem adaptor_roundtrips_witness :
    (read_int16 ⟨(write_int16 (-300) ⟨[0, 0], 0⟩).buf, 0⟩).1 = -300 :=
  adaptor_roundtrips.2.2.2.2.2.1 (-300) ⟨[0, 0], 0⟩ (by norm_num) (by norm_num)
    (by decide)

/-- `write_string(val, out)`: the loop `for (auto const c : val) *out++ = c;
return int(val.length());`.  It copies the bytes of the string verbatim
through the output iterator and returns the count written as a C++ `int`,
i.e. the `size_t` length narrowed to a signed 32-bit value, which wraps for
lengths of `2 ^ 31` and above.  (The `char*` overload does the same via
`memcpy` followed by `start += str.size()`.) -/
def write_string (val : List Nat) (c : Cursor) : Int × Cursor :=
  (toSigned 4 (val.length % 2 ^ (8 * 4)), val.foldl Cursor.writeByte c)

theorem write_string_fold_pos :
    ∀ (val : List Nat) (c : Cursor),
      (val.foldl Cursor.writeByte c).pos = c.pos + val.length := by
  intro val
  induction val with
  | nil => intro c; simp
  | cons b rest ih =>
      intro c
      simp only [List.foldl_cons, ih, Cursor.writeByte, List.length_cons]
      omega

theorem write_string_fold_len :
    ∀ (val : List Nat) (c : Cursor),
      (val.foldl Cursor.writeByte c).buf.length = c.buf.length := by
  intro val
  induction val with
  | nil => intro c; rfl
  | cons b rest ih =>
      intro c
      simp only [List.foldl_cons, ih, Cursor.writeByte, List.length_set]

theorem write_string_fold_frame :
    ∀ (val : List Nat) (c : Cursor) (j : Nat), j < c.pos ∨ c.pos + val.length ≤ j →
      (val.foldl Cursor.writeByte c).buf.getD j 0 = c.buf.getD j 0 := by
  intro val
  induction val with
  | nil => intro c j _; rfl
  | cons b rest ih =>
      intro c j hj
      simp only [List.length_cons] at hj
      have hne : c.pos ≠ j := by omega
      have hstep : (c.writeByte b).buf.getD j 0 = c.buf.getD j 0 := by
        simp [Cursor.writeByte, List.getD_eq_getElem?_getD, List.getElem?_set_ne hne]
      simp only [List.foldl_cons]
      rw [ih (c.writeByte b) j (by simp [Cursor.writeByte]; omega), hstep]

theorem write_string_fold_getD :
    ∀ (val : List Nat) (c : Cursor) (k : Nat), k < val.length →
      c.pos + val.length ≤ c.buf.length →
      (val.foldl Cursor.writeByte c).buf.getD (c.pos + k) 0 = val.getD k 0 := by
  intro val
  induction val with
  | nil => intro c k hk _; simp at hk
  | cons b rest ih =>
      intro c k hk hfit
      simp only [List.length_cons] at hk hfit
      simp only [List.foldl_cons]
      match k with
      | 0 =>
          have hframe := write_string_fold_frame rest (c.writeByte b) c.pos
            (by simp [Cursor.writeByte])
          rw [Nat.add_zero, hframe]
          have hlt : c.pos < c.buf.length := by omega
          simp [Cursor.writeByte, List.getD_eq_getElem?_getD,
            List.getElem?_set_self (by simpa using hlt)]
      | k + 1 =>
          have := ih (c.writeByte b) k (by omega)
            (by simp [Cursor.writeByte, List.length_set]; omega)
          have harith : c.pos + (k + 1) = (c.writeByte b).pos + k := by
            simp [Cursor.writeByte]
            omega
          rw [harith, this]
          simp

/-- Claim C5 fails as stated for strings of length `2 ^ 31` or more: the
count is returned as `int(val.length())`, a `size_t` narrowed to a signed
32-bit `int`, so for a string of length `2 ^ 31` the returned count is
`-2 ^ 31`, not the length. -/
theorem write_string_count_counterexample :
    (write_string (List.replicate (2 ^ 31) 0) ⟨[], 0⟩).1
      ≠ (((List.replicate (2 ^ 31) (0 : Nat)).length : Nat) : Int) := by
  have hlen : (List.replicate (2 ^ 31) (0 : Nat)).length = 2 ^ 31 :=
    List.length_replicate (2 ^ 31) 0
  unfold write_string
  simp only [hlen]
  unfold toSigned
  norm_num

/-- Claim C5 (amended): `write_string` copies the bytes of the string
verbatim, in order, to the output cursor, advances the cursor by exactly
the string's length, changes nothing outside the written window, and
returns the count written as a signed 32-bit `int` — equal to the string's
length for every string shorter than `2 ^ 31` bytes, including the empty
string, which copies nothing and returns 0.  (For longer strings the
returned count wraps; see the counterexample.) -/
theorem write_string_spec (s : List Nat) (c : Cursor)
    (hfit : c.pos + s.length ≤ c.buf.length) :
    (s.length < 2 ^ 31 → (write_string s c).1 = (s.length : Int))
    ∧ (write_string s c).2.pos = c.pos + s.length
    ∧ (∀ k, k < s.length →
        (write_string s c).2.buf.getD (c.pos + k) 0 = s.getD k 0)
    ∧ ∀ j, j < c.pos ∨ c.pos + s.length ≤ j →
        (write_string s c).2.buf.getD j 0 = c.buf.getD j 0 := by
  refine ⟨?_, write_string_fold_pos s c, ?_, ?_⟩
  · intro h
    show toSigned 4 (s.length % 2 ^ (8 * 4)) = (s.length : Int)
    have h32 : s.length < 2 ^ (8 * 4) := lt_trans h (by norm_num)
    rw [Nat.mod_eq_of_lt h32]
    unfold toSigned
    rw [if_pos (show s.length < 2 ^ (8 * 4 - 1) from by norm_num; omega)]
  · intro k hk
    exact write_string_fold_getD s c k hk hfit
  · intro j hj
    exact write_string_fold_frame s c j hj

theorem write_string_spec_witness :
    ((write_string [10, 20] ⟨[0, 0, 0], 1⟩).1 = ((2 : Nat) : Int))
    ∧ (write_string [10, 20] ⟨[0, 0, 0], 1⟩).2.buf.getD (1 + 0) 0
        = ([10, 20] : List Nat).getD 0 0 :=
  ⟨(write_string_spec [10, 20] ⟨[0, 0, 0], 1⟩ (by decide)).1 (by norm_num),
   (write_string_spec [10, 20] ⟨[0, 0, 0], 1⟩ (by decide)).2.2.1 0 (by decide)⟩

/-- A fixed-width C++ integer type: byte width and signedness.  `write_impl`
is instantiated with an output type `T` and an input type `In`, both of this
shape. -/
structure IntType where
  width : Nat
  signed : Bool
deriving DecidableEq

/-- Whether a value is representable in the type: the value range of a
`width`-byte signed or unsigned machine integer. -/
def IntType.inRange (t : IntType) (v : Int) : Bool :=
  if t.signed then
    decide (-((2 ^ (8 * t.width - 1) : Nat) : Int) ≤ v)
      && decide (v < ((2 ^ (8 * t.width - 1) : Nat) : Int))
  else
    decide (0 ≤ v) && decide (v < ((2 ^ (8 * t.width) : Nat) : Int))

/-- The value produced by `static_cast` to the type: reduce to the bit
pattern, then reinterpret it according to the signedness (the modular
conversion every mainstream implementation performs). -/
def IntType.cast (t : IntType) (v : Int) : Int :=
  if t.signed then toSigned t.width (toBits t.width v) else (toBits t.width v : Int)

/-- The condition of the `TORRENT_ASSERT(data == static_cast<In>(val))` in
`write_impl`, where `val = static_cast<T>(data)`: `T` is the output type of
the write and `In` the type of the value handed in. -/
def write_assert_holds (T In : IntType) (data : Int) : Bool :=
  decide (data = In.cast (T.cast data))

theorem cast_of_inRange (t : IntType) (ht : 0 < t.width) (v : Int)
    (h : t.inRange v = true) : t.cast v = v := by
  unfold IntType.cast
  unfold IntType.inRange at h
  split_ifs with hs
  · rw [hs] at h
    simp only [if_true, Bool.and_eq_true, decide_eq_true_eq] at h
    exact toSigned_toBits t.width ht v h.1 h.2
  · rw [if_neg hs] at h
    simp only [Bool.and_eq_true, decide_eq_true_eq] at h
    unfold toBits
    rw [Int.emod_eq_of_lt h.1 h.2]
    exact Int.toNat_of_nonneg h.1

/-- Claim C3 fails as stated: the assertion can hold for a value that is
not representable in the output width.  Writing the `int8` value `-1`
through `write_uint8` (output type `uint8`) passes the assertion, because
the two modular casts wrap `-1` to `255` and back to `-1`, yet `-1` is not
representable in the unsigned 8-bit output type. -/
theorem write_assert_iff_counterexample :
    write_assert_holds ⟨1, false⟩ ⟨1, true⟩ (-1) = true
    ∧ IntType.inRange ⟨1, false⟩ (-1) = false := by
  decide

/-- Claim C3 (amended): one direction of the claimed equivalence is what
the code guarantees — for every input value representable in the output
type, the assertion holds.  The converse is false (see the counterexample):
when the input type is strictly narrower than the output type, the modular
casts can restore an unrepresentable value. -/
theorem write_assert_of_representable (T In : IntType) (data : Int)
    (hT : 0 < T.width) (hIn : 0 < In.width)
    (hin : In.inRange data = true) (hout : T.inRange data = true) :
    write_assert_holds T In data = true := by
  unfold write_assert_holds
  rw [cast_of_inRange T hT data hout, cast_of_inRange In hIn data hin]
  simp

theorem write_assert_of_representable_witness :
    write_assert_holds ⟨4, false⟩ ⟨8, true⟩ 5 = true :=
  write_assert_of_representable ⟨4, false⟩ ⟨8, true⟩ 5 (by norm_num) (by norm_num)
    (by decide) (by decide)

-- The disk_io_job record (disk_io_job.hpp): enums and defaulted fields.

/-- The job kinds of `job_action_t`. -/
inductive job_action_t
  | read
  | write
  | hash
  | hash2
  | move_storage
  | release_files
  | delete_files
  | check_fastresume
  | rename_file
  | stop_torrent
  | file_priority
  | clear_piece
  | partial_read
deriving DecidableEq

/-- The `status_t` result codes of the disk interface. -/
inductive status_t
  | no_error
  | fatal_disk_error
  | need_full_check
  | file_exist
deriving DecidableEq

/-- The `move_flags_t` policy values for file moves. -/
inductive move_flags_t
  | always_replace_files
  | fail_if_exist
  | dont_replace
  | reset_save_path
  | reset_save_path_unchecked
deriving DecidableEq

/-- The scalar fields of `disk_io_job` that carry in-class initializers,
with those initializers as Lean default field values: `action = read`,
`ret = no_error`, empty `flags`, `move_flags = always_replace_files`, and
the four debug booleans `false`.  `flags` is the bit set of
`disk_job_flags_t` (fence = bit 1, in_progress = bit 2, aborted = bit 6). -/
structure disk_io_job where
  action : job_action_t := job_action_t.read
  ret : status_t := status_t.no_error
  flags : Nat := 0
  move_flags : move_flags_t := move_flags_t.always_replace_files
  in_use : Bool := false
  job_posted : Bool := false
  callback_called : Bool := false
  blocked : Bool := false
deriving DecidableEq

/-- A job record built by the default constructor `disk_io_job()` with no
field explicitly overridden: every field takes its in-class initializer. -/
def default_disk_io_job : disk_io_job := {}

/-- Claim C8: a newly constructed job record that does not override
`move_flags` has it set to the always-replace-existing-files policy. -/
theorem default_move_flags :
    default_disk_io_job.move_flags = move_flags_t.always_replace_files := rfl

-- The session_delegate base class (session_delegate.h).

/-- The base-class body of `session_delegate::checkDownloadLimit`: it is
`return true;` whatever the receipt, download channel id and size are. -/
def checkDownloadLimit (_reciept : List Nat) (_downloadChannelId : List Nat)
    (_downloadedSize : Nat) : Bool :=
  true

/-- The base-class body of `session_delegate::onPiece`: the body is empty
(the replicator does nothing here), so any delegate state is returned
unchanged. -/
def onPiece {α : Type} (_pieceSize : Nat) (s : α) : α := s

/-- Claim C10: unless a subclass overrides them, the session delegate
enforces no download limit — `checkDownloadLimit` returns `true` for every
receipt, every download-channel id and every downloaded size — and
`onPiece` performs no observable state change for any piece size. -/
theorem session_delegate_defaults :
    (∀ (r ch : List Nat) (n : Nat), checkDownloadLimit r ch n = true)
    ∧ ∀ (α : Type) (n : Nat) (s : α), onPiece n s = s :=
  ⟨fun _ _ _ => rfl, fun _ _ _ => rfl⟩

-- The completion pipeline around call_callback.  Only the declaration
-- `void call_callback();` and the debug flags of disk_io_job.hpp are in
-- the excerpt; the execute/post/dispatch loop of the disk thread is
-- modelled from the spec.

/-- Modelled from the spec: a job record as seen by the completion
pipeline (the body of `disk_io_job::call_callback` and the disk thread
that drives it are missing from the excerpt).  Alongside the source's
`job_posted` and `callback_called` debug flags it carries history fields —
`invocations`, `invoked_variant`, `populated_at_invocation` — that record
what the callback machinery did, so invocation counting is provable. -/
structure JobRec where
  action : job_action_t
  populated : Bool := false
  job_posted : Bool := false
  callback_called : Bool := false
  invocations : Nat := 0
  invoked_variant : Option job_action_t := none
  populated_at_invocation : Option Bool := none
deriving DecidableEq

/-- Modelled from the spec: a job record as freshly submitted by the
control context — result fields not yet populated, not posted, callback
never invoked. -/
def fresh_job (a : job_action_t) : JobRec := { action := a }

/-- Modelled from the spec: the execution context performs the operation
and fully populates the record's `result_error`/`result_data` before
completion is posted. -/
def execute_job (j : JobRec) : JobRec := { j with populated := true }

/-- Modelled from the spec: the record is added to the completion queue,
guarded by the `job_posted` debug flag so it cannot be added twice. -/
def post_job (j : JobRec) : JobRec :=
  if j.job_posted then j else { j with job_posted := true }

/-- Modelled from the spec: `call_callback` invokes the callback variant
selected by the job's kind and sets `callback_called`; the history fields
record the invocation, the variant used, and whether the results were
populated at that moment. -/
def call_callback (j : JobRec) : JobRec :=
  { j with
    callback_called := true
    invocations := j.invocations + 1
    invoked_variant := some j.action
    populated_at_invocation := some j.populated }

/-- Modelled from the spec: the completion dispatcher on the control
context invokes the callback of a drained record, guarded by the
`callback_called` debug flag so a record is never invoked twice. -/
def dispatch_job (j : JobRec) : JobRec :=
  if j.callback_called then j else call_callback j

/-- Modelled from the spec: the life of one submitted record — the
execution context executes and posts it, the control context dispatches
its completion. -/
def complete_job (j : JobRec) : JobRec := dispatch_job (post_job (execute_job j))

/-- Claim C6: for every submitted job record the completion callback is
invoked exactly once — never dropped, never repeated — only after the
result fields are fully populated, and with the callback variant matching
the job's kind. -/
theorem job_callback_exactly_once (submissions : List job_action_t) :
    ∀ j, j ∈ (submissions.map fresh_job).map complete_job →
      j.invocations = 1
      ∧ j.callback_called = true
      ∧ j.populated_at_invocation = some true
      ∧ j.invoked_variant = some j.action := by
  intro j hj
  simp only [List.mem_map] at hj
  obtain ⟨b, ⟨a, ha, rfl⟩, rfl⟩ := hj
  simp [complete_job, dispatch_job, post_job, execute_job, call_callback, fresh_job]

theorem job_callback_exactly_once_witness :
    (complete_job (fresh_job job_action_t.write)).invocations = 1
    ∧ (complete_job (fresh_job job_action_t.write)).callback_called = true
    ∧ (complete_job (fresh_job job_action_t.write)).populated_at_invocation = some true
    ∧ (complete_job (fresh_job job_action_t.write)).invoked_variant
        = some (complete_job (fresh_job job_action_t.write)).action :=
  job_callback_exactly_once [job_action_t.write]
    (complete_job (fresh_job job_action_t.write)) (by decide)

-- The intrusive multi-queue membership discipline.  tailqueue.hpp is not
-- part of the excerpt; disk_io_job.hpp only inherits `tailqueue_node` and
-- documents that a job belongs to at most one of the three queues, so the
-- queue operations are modelled from the spec.

/-- Modelled from the spec: the three queue roles a job record can be
linked into — the pending-work queue of the disk thread, the wait set of a
cache piece, and the wait set of a storage fence. -/
inductive queue_role
  | pending_work
  | piece_wait
  | fence_wait
deriving DecidableEq

/-- Modelled from the spec: the contents of the three intrusive queues,
each a FIFO list of job ids. -/
structure QueueState where
  pending_work : List Nat := []
  piece_wait : List Nat := []
  fence_wait : List Nat := []
deriving DecidableEq

def QueueState.get (s : QueueState) : queue_role → List Nat
  | queue_role.pending_work => s.pending_work
  | queue_role.piece_wait => s.piece_wait
  | queue_role.fence_wait => s.fence_wait

def QueueState.set (s : QueueState) : queue_role → List Nat → QueueState
  | queue_role.pending_work, l => { s with pending_work := l }
  | queue_role.piece_wait, l => { s with piece_wait := l }
  | queue_role.fence_wait, l => { s with fence_wait := l }

/-- Modelled from the spec: whether a record is currently linked into any
of the three queues. -/
def QueueState.linked (s : QueueState) (j : Nat) : Bool :=
  decide (j ∈ s.pending_work) || decide (j ∈ s.piece_wait)
    || decide (j ∈ s.fence_wait)

/-- How many queue slots hold the record: its total membership count over
the three queues. -/
def QueueState.memberCount (s : QueueState) (j : Nat) : Nat :=
  s.pending_work.count j + s.piece_wait.count j + s.fence_wait.count j

/-- Modelled from the spec: the operations of the intrusive queue layer —
link a currently-unlinked record to a queue's tail, unlink a queue's front
record, and transfer a queue's front record to another queue, which
unlinks it from the source before linking it to the target. -/
inductive queue_op
  | link (q : queue_role) (j : Nat)
  | unlink (q : queue_role)
  | transfer (src dst : queue_role)

/-- Modelled from the spec: one queue operation.  Linking a record that is
already linked somewhere is the programming error the design excludes
(assertion-checked in debug builds), so the model rejects it. -/
def queue_step (s : QueueState) : queue_op → QueueState
  | queue_op.link q j => if s.linked j then s else s.set q (s.get q ++ [j])
  | queue_op.unlink q => s.set q (s.get q).tail
  | queue_op.transfer src dst =>
      match s.get src with
      | [] => s
      | j :: rest => (s.set src rest).set dst ((s.set src rest).get dst ++ [j])

/-- Modelled from the spec: the queue system evolved from the empty
initial state by a sequence of operations. -/
def queue_run (ops : List queue_op) : QueueState := ops.foldl queue_step {}

theorem memberCount_set_add (s : QueueState) (q : queue_role) (l : List Nat)
    (j : Nat) :
    (s.set q l).memberCount j + (s.get q).count j
      = s.memberCount j + l.count j := by
  cases q <;> simp [QueueState.set, QueueState.get, QueueState.memberCount]
    <;> omega

theorem count_get_le_memberCount (s : QueueState) (q : queue_role) (j : Nat) :
    (s.get q).count j ≤ s.memberCount j := by
  cases q <;> simp [QueueState.get, QueueState.memberCount] <;> omega

theorem memberCount_of_not_linked (s : QueueState) (j : Nat)
    (h : s.linked j = false) : s.memberCount j = 0 := by
  simp only [QueueState.linked, Bool.or_eq_false_iff, decide_eq_false_iff_not] at h
  obtain ⟨⟨h1, h2⟩, h3⟩ := h
  simp [QueueState.memberCount, List.count_eq_zero_of_not_mem, h1, h2, h3]

theorem count_tail_le (l : List Nat) (j : Nat) : l.tail.count j ≤ l.count j := by
  cases l with
  | nil => simp
  | cons b rest =>
      rw [List.tail_cons, List.count_cons]
      omega

theorem queue_step_link_of_not_linked (s : QueueState) (q : queue_role) (j : Nat)
    (h : s.linked j = false) :
    queue_step s (queue_op.link q j) = s.set q (s.get q ++ [j]) := by
  simp [queue_step, h]

theorem queue_step_transfer_cons (s : QueueState) (src dst : queue_role)
    (j0 : Nat) (rest : List Nat) (hsrc : s.get src = j0 :: rest) :
    queue_step s (queue_op.transfer src dst)
      = (s.set src rest).set dst ((s.set src rest).get dst ++ [j0]) := by
  simp [queue_step, hsrc]

theorem queue_step_preserves (s : QueueState) (op : queue_op)
    (h : ∀ j, s.memberCount j ≤ 1) :
    ∀ j, (queue_step s op).memberCount j ≤ 1 := by
  intro j
  cases op with
  | link q j' =>
      cases hl : s.linked j' with
      | true =>
          simp [queue_step, hl]
          exact h j
      | false =>
          rw [queue_step_link_of_not_linked s q j' hl]
          have hzero := memberCount_of_not_linked s j' hl
          have hset := memberCount_set_add s q (s.get q ++ [j']) j
          rw [List.count_append, List.count_cons, List.count_nil] at hset
          have hle := count_get_le_memberCount s q j
          have hs := h j
          by_cases hj : j' = j
          · subst hj
            simp at hset
            omega
          · simp [hj] at hset
            omega
  | unlink q =>
      have hset := memberCount_set_add s q (s.get q).tail j
      have htail := count_tail_le (s.get q) j
      have hs := h j
      simp only [queue_step]
      omega
  | transfer src dst =>
      cases hsrc : s.get src with
      | nil =>
          simp [queue_step, hsrc]
          exact h j
      | cons j0 rest =>
          rw [queue_step_transfer_cons s src dst j0 rest hsrc]
          have hset1 := memberCount_set_add s src rest j
          rw [hsrc, List.count_cons] at hset1
          have hset2 := memberCount_set_add (s.set src rest) dst
            ((s.set src rest).get dst ++ [j0]) j
          rw [List.count_append, List.count_cons, List.count_nil] at hset2
          have hle0 := count_get_le_memberCount s src j
          rw [hsrc, List.count_cons] at hle0
          have hs := h j
          by_cases hj : j0 = j
          · subst hj
            simp at hset1 hset2 hle0
            omega
          · simp [hj] at hset1 hset2 hle0
            omega

/-- Claim C7: in every execution of the queue layer, each job record is a
member of at most one of the three intrusive queues — and of that one at
most once — at every instant: every state reachable from the empty state
by link/unlink/transfer operations has total membership count at most one
for every record. -/
theorem queue_membership_exclusive (ops : List queue_op) (j : Nat) :
    (queue_run ops).memberCount j ≤ 1 := by
  suffices hgen : ∀ (l : List queue_op) (s : QueueState),
      (∀ i, s.memberCount i ≤ 1) → ∀ i, (l.foldl queue_step s).memberCount i ≤ 1 by
    exact hgen ops {} (fun i => by simp [QueueState.memberCount]) j
  intro l
  induction l with
  | nil => intro s hs i; exact hs i
  | cons op rest ih =>
      intro s hs i
      exact ih (queue_step s op) (queue_step_preserves s op hs) i
